import Mathlib

set_option maxRecDepth 10000

/-!
Verification of the Huffman single-file compressor (`huffman_tree.hpp`,
`hzip.cpp`).  The C++ data structures and functions are shallowly embedded:
bytes are `Nat` values below 256, machine counters (`size_t`) wrap mod 2^64
where it matters, file I/O streams become explicit `List Nat` byte lists, and
operations whose C++ original dereferences a null pointer or indexes outside
an allocation return `none` (or a dedicated `ub` result) at exactly those
points.
-/

/-- Model of `HuffmanTreeNode` (huffman_tree.hpp).  A node is either a leaf
carrying `originalByte` and its frequency, or an internal node with two
children (the C++ constructor `HuffmanTreeNode(left, right)` rejects null
children, so internal nodes always have exactly two subtrees). -/
inductive Node : Type
  | leaf (originalByte : Nat) (frequency : Nat) : Node
  | internal (left : Node) (right : Node) : Node
  deriving DecidableEq, Repr

/-- `HuffmanTreeNode::getFrequency`.  The C++ stores the frequency field; for
internal nodes the constructor sets it to the sum of the children's
frequencies, which we compute recursively. -/
def Node.getFrequency : Node → Nat
  | Node.leaf _ f => f
  | Node.internal l r => l.getFrequency + r.getFrequency

/-- `HuffmanTreeNode::getOriginalByte`; throws (`none`) on internal nodes. -/
def Node.getOriginalByte : Node → Option Nat
  | Node.leaf s _ => some s
  | Node.internal _ _ => none

/-- `HuffmanTreeNode::isLeaf` (`originalByte.has_value()`). -/
def Node.isLeaf : Node → Bool
  | Node.leaf _ _ => true
  | Node.internal _ _ => false

/-- `HuffmanTreeNode::getLeftSubtree`; a leaf has a null left child. -/
def Node.getLeftSubtree : Node → Option Node
  | Node.leaf _ _ => none
  | Node.internal l _ => some l

/-- `HuffmanTreeNode::getRightSubtree`; a leaf has a null right child. -/
def Node.getRightSubtree : Node → Option Node
  | Node.leaf _ _ => none
  | Node.internal _ r => some r

/-- The symbol stored in a node, defaulting to 0 for internal nodes (only ever
read off leaves in the program). -/
def Node.symD (n : Node) : Nat := (Node.getOriginalByte n).getD 0

/-- Model of `EncodedByte` (huffman_tree.hpp): a codeword as a byte vector
plus the number of significant bits, most significant bit first. -/
structure EncodedByte : Type where
  codeword : List Nat
  numberOfBits : Nat
  deriving DecidableEq, Repr

/-- Bit `i` (0-based, MSB-first across a byte vector): bit `7 - i % 8` of
byte `i / 8`.  Reading past the vector yields `false`. -/
def cwBit (cw : List Nat) (i : Nat) : Bool :=
  Nat.testBit (cw.getD (i / 8) 0) (7 - i % 8)

/-- Bit `i` of an `EncodedByte`'s codeword. -/
def ebBit (e : EncodedByte) (i : Nat) : Bool := cwBit e.codeword i

/-- The significant bits of an `EncodedByte`, MSB first. -/
def ebBits (e : EncodedByte) : List Bool :=
  (List.range e.numberOfBits).map (ebBit e)

/-- The insertion loop shared by the `HuffmanTree` file constructor
(huffman_tree.hpp lines 286-291) and `buildMinHeapFromLeaves` (lines
405-410): scan from the front while the element's frequency is strictly
greater than the new node's, and insert at the first position where it is
not. -/
def insertOrderedByFreq : List Node → Node → List Node
  | [], n => [n]
  | x :: xs, n =>
      if n.getFrequency < x.getFrequency then x :: insertOrderedByFreq xs n
      else n :: x :: xs

/-- One iteration of the leaf-seeding loop of
`HuffmanTree::HuffmanTree(const std::string&)` (huffman_tree.hpp lines
282-292): skip symbol `i` when its frequency is zero, otherwise insert the
leaf `(i, freqArr[i])` into the ordered list. -/
def seedStep (freqArr : Nat → Nat) (acc : List Node) (i : Nat) : List Node :=
  if freqArr i = 0 then acc
  else insertOrderedByFreq acc (Node.leaf i (freqArr i))

/-- The whole leaf-seeding loop: symbol values 0 to 255 in increasing
order. -/
def buildLeaves (freqArr : Nat → Nat) : List Node :=
  (List.range 256).foldl (seedStep freqArr) []

/-- `HuffmanTree::buildMinHeapFromLeaves` (huffman_tree.hpp lines 394-413):
while more than one node remains, pop the last two (`left` then `right`),
merge them into an internal node, and re-insert with the linear scan.  The
final `tempLeaves.front()` on an empty vector is undefined behaviour, modelled
by `none`. -/
def minHeapGo : Nat → List Node → Option Node
  | 0, l => l.head?
  | fuel + 1, l =>
      if 1 < l.length then
        match l.reverse with
        | a :: b :: rest =>
            minHeapGo fuel (insertOrderedByFreq rest.reverse (Node.internal a b))
        | _ => l.head?
      else l.head?

/-- `HuffmanTree::buildMinHeapFromLeaves`, entry point: each loop iteration
shrinks the working vector by one (pop two, insert one), so the initial
length bounds the number of iterations and serves as structural fuel for
`minHeapGo`; the fuel never runs out before the `size() > 1` test fails. -/
def buildMinHeapFromLeaves (leaves : List Node) : Option Node :=
  minHeapGo leaves.length leaves

/-- Sets the last byte of a codeword to its bitwise-or with `p`
(`encodedByte.codeword[encodedByte.codeword.size() - 1] |= position`). -/
def setLastOr (cw : List Nat) (p : Nat) : List Nat :=
  cw.set (cw.length - 1) ((cw.getD (cw.length - 1) 0) ||| p)

/-- `HuffmanTree::setEncodings` on a non-null node (huffman_tree.hpp lines
358-373).  At a leaf the accumulated `EncodedByte` is recorded; at an internal
node, a `position` of 0 is normalised to 0x80 with a fresh zero byte appended,
the bit count is incremented, the left subtree keeps the bit clear and the
right subtree gets the bit at `position` set, both recursing with
`position / 2`.  The C++ `unordered_map` is modelled as the insertion-ordered
association list. -/
def setEncodingsNode : EncodedByte → Node → Nat → List (Nat × EncodedByte)
  | e, Node.leaf s _, _ => [(s, e)]
  | e, Node.internal l r, position =>
      let p := if position = 0 then 128 else position
      let cw := if position = 0 then e.codeword ++ [0] else e.codeword
      setEncodingsNode ⟨cw, e.numberOfBits + 1⟩ l (p / 2) ++
        setEncodingsNode ⟨setLastOr cw p, e.numberOfBits + 1⟩ r (p / 2)

/-- `HuffmanTree::setEncodings` as called on a `HuffmanTreeNodePtr`: the C++
immediately dereferences the pointer (`currentNode->isLeaf()`), so a null
argument is undefined behaviour, modelled by `none`. -/
def setEncodings (e : EncodedByte) (node : Option Node) (position : Nat) :
    Option (List (Nat × EncodedByte)) :=
  node.map (fun n => setEncodingsNode e n position)

/-- `HuffmanTree::buildEncodingDict` (huffman_tree.hpp lines 378-389): seed
the left subtree with codeword byte 0x00 and the right subtree with 0x80,
both one bit long, starting at position 0x40.  When the root is a leaf both
subtree pointers are null and the traversal crashes (`none`). -/
def buildEncodingDict (root : Node) : Option (List (Nat × EncodedByte)) := do
  let dL ← setEncodings ⟨[0], 1⟩ root.getLeftSubtree 64
  let dR ← setEncodings ⟨[128], 1⟩ root.getRightSubtree 64
  pure (dL ++ dR)

/-- `HuffmanTree::getHigherFrequency` (`leaves.front()->getFrequency()`);
`front()` on an empty vector is undefined behaviour, modelled by `none`. -/
def getHigherFrequency (leaves : List Node) : Option Nat :=
  leaves.head?.map Node.getFrequency

/-- `⌈log2 n⌉` by repeated ceiling halving, fuelled so that the recursion is
structural (any `fuel ≥ n` gives the true value, see `clog2Go_eq_clog`). -/
def clog2Go : Nat → Nat → Nat
  | 0, _ => 0
  | fuel + 1, n => if n ≤ 1 then 0 else clog2Go fuel ((n + 1) / 2) + 1

/-- `byteSize` (hzip.cpp lines 16-18): `ceil(log2(n) / 8)` computed over
`double`.  For the integer inputs reached by the program (`1 ≤ n < 2^53` at
the decision boundaries) the floating-point computation agrees with the exact
real value, and for `n ≥ 1` that value equals `(⌈log2 n⌉ + 7) / 8` in integer
arithmetic (`⌈x / 8⌉ = ⌈⌈x⌉ / 8⌉`), i.e. `(Nat.clog 2 n + 7) / 8`; see
`byteSize_eq_clog`.  The `uint8_t` cast never truncates for `size_t` inputs
(the value is at most 8). -/
def byteSize (n : Nat) : Nat := (clog2Go n n + 7) / 8

/-- The big-endian frequency field written by `writeHuffmanMetadata` (hzip.cpp
lines 113-116): byte `j` (0-based from the most significant end) of a field
`w` bytes wide. -/
def beBytes (w frequency : Nat) : List Nat :=
  (List.range w).map (fun j => (frequency >>> (8 * (w - 1 - j))) % 256)

/-- `writeHuffmanMetadata` (hzip.cpp lines 92-123) as the byte list written to
the destination file: the leaf count cast to `uint8_t` (hence mod 256), the
frequency byte width from `byteSize(getHigherFrequency())`, then per leaf one
symbol byte followed by the big-endian frequency.  `none` models the undefined
`front()` on empty leaves or `getOriginalByte` throwing on an internal node. -/
def writeHuffmanMetadata (leaves : List Node) : Option (List Nat) := do
  let higher ← getHigherFrequency leaves
  let bytesForFreq := byteSize higher
  let entries ← leaves.mapM (fun n => do
    let s ← n.getOriginalByte
    pure (s :: beBytes bytesForFreq n.getFrequency))
  pure ((leaves.length % 256) :: bytesForFreq :: entries.flatten)

/-- `readHuffmanMetadata` (hzip.cpp lines 278-301): read two bytes, compute
`uniqueBytes * (bytesForFreq + 1) + 2`, and read that many further bytes.
Returns the metadata array contents together with the unread remainder of the
file.  A file shorter than two bytes leaves `auxBuffer` uninitialised
(`none`); a short metadata read simply yields a shorter array (the C++ array
tail stays uninitialised and any later access to it is caught as
out-of-bounds by `buildLeavesFromMetadata`'s model). -/
def readHuffmanMetadata (file : List Nat) : Option (List Nat × List Nat) := do
  let uniqueBytes ← file.get? 0
  let bytesForFreq ← file.get? 1
  let size := uniqueBytes * (bytesForFreq + 1) + 2
  pure (uniqueBytes :: bytesForFreq :: (file.drop 2).take (size - 2), file.drop size)

/-- `buildLeavesFromMetadata` (hzip.cpp lines 325-351): for each of the
`uniqueBytes` entries read one symbol byte at `idx` and a frequency starting
with the byte at `idx + 1` (read unconditionally, even when `bytesForFreq` is
0) followed by `bytesForFreq - 1` further bytes, folded big-endian in `size_t`
arithmetic (mod 2^64).  Indexing past the metadata array is undefined
behaviour (`none`). -/
def buildLeavesFromMetadata (metadata : List Nat) : Option (List Node) :=
  let uniqueBytes := metadata.getD 0 0
  let bytesForFreq := metadata.getD 1 0
  (List.range uniqueBytes).mapM (fun i => do
    let idx := i * (bytesForFreq + 1) + 2
    let s ← metadata.get? idx
    let f0 ← metadata.get? (idx + 1)
    let f ← (List.range (bytesForFreq - 1)).foldlM
      (fun acc j => do
        let b ← metadata.get? (idx + j + 2)
        pure (((acc <<< 8) % 2 ^ 64) ||| b))
      f0
    pure (Node.leaf s f))

/-- The byte-wise shifting loop of `shiftRight` (hzip.cpp lines 64-69),
carrying `shiftedBits` between iterations; the carry is stored in a `uint8_t`,
hence the mod 256. -/
def shiftBytesGo (bits : Nat) : List Nat → Nat → List Nat
  | [], _ => []
  | b :: rest, carry =>
      ((b >>> bits) ||| carry) :: shiftBytesGo bits rest ((b <<< (8 - bits)) % 256)

/-- `shiftRight` (hzip.cpp lines 40-71): add `bitsToShift` to the bit count,
prepend `bitsToShift / 8` zero bytes when shifting at least a byte, and shift
the remaining bytes right by `bitsToShift % 8` bits, appending one byte
whenever the updated bit count is not a multiple of 8. -/
def shiftRight (e : EncodedByte) (bitsToShift : Nat) : EncodedByte :=
  let nb := e.numberOfBits + bitsToShift
  let bytesToInsert := if 8 ≤ bitsToShift then bitsToShift / 8 else 0
  let cw0 :=
    if 8 ≤ bitsToShift then List.replicate (bitsToShift / 8) 0 ++ e.codeword
    else e.codeword
  let bits := if 8 ≤ bitsToShift then bitsToShift % 8 else bitsToShift
  if 0 < bits then
    let cw1 := if nb % 8 ≠ 0 then cw0 ++ [0] else cw0
    { codeword := cw1.take bytesToInsert ++ shiftBytesGo bits (cw1.drop bytesToInsert) 0,
      numberOfBits := nb }
  else
    { codeword := cw0, numberOfBits := nb }

/-- The state threaded through `zip`'s encoding loop (hzip.cpp lines
173-241): bytes already written to the destination file, the 1024-byte
`destBuffer`, and `destBufferFreeBits` (an `int`, transiently negative). -/
structure ZipState : Type where
  out : List Nat
  destBuffer : List Nat
  destBufferFreeBits : Int
  deriving Repr

/-- `destBuffer[i] |= v`.  (An index past the 1024-byte buffer would be a
stack overrun in the C++; none of the inputs evaluated below reach one.) -/
def listOrAt (buf : List Nat) (i : Nat) (v : Nat) : List Nat :=
  buf.set i ((buf.getD i 0) ||| v)

/-- The write-out loop `for (iter = codeword.begin(); ...)` of `zip` (hzip.cpp
lines 233-236): or each codeword byte into the buffer at consecutive
indices. -/
def writeCodewordBytes : List Nat → Nat → List Nat → List Nat
  | buf, _, [] => buf
  | buf, i, c :: cs => writeCodewordBytes (listOrAt buf i c) (i + 1) cs

/-- `encodingDict[srcBuffer[i]]`: `std::unordered_map::operator[]` returns the
mapped value, default-constructing `EncodedByte()` (codeword `{0}`, zero bits)
on a miss. -/
def lookupDict (dict : List (Nat × EncodedByte)) (b : Nat) : EncodedByte :=
  ((dict.find? (fun p => p.1 == b)).map Prod.snd).getD ⟨[0], 0⟩

/-- One iteration of `zip`'s per-byte encoding loop (hzip.cpp lines 199-236):
look the byte up, shift its codeword right into alignment, flush the buffer
when it fills, and or the codeword bytes into the buffer. -/
def zipStep (dict : List (Nat × EncodedByte)) (st : ZipState) (b : Nat) : ZipState :=
  let encodedByte := lookupDict dict b
  let bitsWritten : Nat := ((8192 : Int) - st.destBufferFreeBits).toNat
  let destBufferIndex := bitsWritten / 8
  let shr := bitsWritten % 8
  let free1 : Int := st.destBufferFreeBits - encodedByte.numberOfBits
  let e := shiftRight encodedByte shr
  if free1 ≤ 0 then
    let buf := listOrAt st.destBuffer destBufferIndex (e.codeword.getD 0 0)
    let out := st.out ++ buf.take (destBufferIndex + 1)
    let fresh := List.replicate 1024 0
    if e.codeword.length = 1 then ⟨out, fresh, 8192⟩
    else
      let e2 : EncodedByte := ⟨e.codeword.drop 1, e.numberOfBits - 8⟩
      ⟨out, writeCodewordBytes fresh 0 e2.codeword, 8192 - (e2.numberOfBits : Int)⟩
  else
    ⟨st.out, writeCodewordBytes st.destBuffer destBufferIndex e.codeword, free1⟩

/-- The final partial-buffer flush of `zip` (hzip.cpp lines 244-248). -/
def zipFinish (st : ZipState) : List Nat :=
  if st.destBufferFreeBits < 8192 then
    st.out ++ st.destBuffer.take ((((8192 : Int) - st.destBufferFreeBits).toNat + 7) / 8)
  else st.out

/-- `zip` (hzip.cpp lines 146-250) for a source file with extension `ext` and
content bytes `content`.  The encoded stream is `ext ++ ' ' ++ content`, both
for frequency counting (the `HuffmanTree` file constructor) and for encoding;
`zip`'s chunked reads visit exactly these bytes in order, so the fold is over
the flat stream.  The result is the compressed file's bytes: the Huffman
metadata header followed by the packed body. -/
def zipModel (ext content : List Nat) : Option (List Nat) := do
  let stream := ext ++ 32 :: content
  let leaves := buildLeaves (fun i => stream.count i)
  let root ← buildMinHeapFromLeaves leaves
  let dict ← buildEncodingDict root
  let header ← writeHuffmanMetadata leaves
  let st := stream.foldl (zipStep dict) ⟨header, List.replicate 1024 0, 8192⟩
  pure (zipFinish st)

/-- Outcome of `unzip`: successful reconstruction of (extension, content),
the thrown `std::runtime_error` (hzip.cpp lines 490 and 504), or undefined
behaviour (null dereference, out-of-bounds or uninitialised read). -/
inductive UnzipResult : Type
  | ok (ext content : List Nat) : UnzipResult
  | err : UnzipResult
  | ub : UnzipResult
  deriving DecidableEq, Repr

/-- `bytesToDecode--` on a `size_t`: wraps at zero. -/
def dec64 (n : Nat) : Nat := if n = 0 then 2 ^ 64 - 1 else n - 1

/-- One edge of the tree walk (hzip.cpp lines 423-426 and 455-458): left on a
clear bit, right on a set bit.  On a leaf both child pointers are null and the
subsequent dereference is undefined behaviour (`none`). -/
def walkStep (n : Node) (b : Bool) : Option Node :=
  match n with
  | Node.leaf _ _ => none
  | Node.internal l r => some (if b then r else l)

/-- The bits of a byte list, MSB first within each byte, as read by the
decoder's `mask = 0x80; mask >>= 1` loops. -/
def bytesToBits (l : List Nat) : List Bool :=
  (l.map (fun b => (List.range 8).map (fun k => Nat.testBit b (7 - k)))).flatten

/-- The inner decoding loop of `unzip` (hzip.cpp lines 451-493), entered after
the separator byte: walk the tree bit by bit, emit a content byte at each
leaf, and stop when `bytesToDecode` reaches zero.  Exhausting the bits first
reproduces the refill that reads zero bytes and throws (line 490).  `bits` is
the flat remaining bitstream: the loop's chunk refills preserve byte order, so
they are transparent here. -/
def decodeInner (t : Node) (ext : List Nat) :
    Node → Nat → List Nat → List Bool → UnzipResult
  | _, _, _, [] => UnzipResult.err
  | cur, bytesToDecode, acc, b :: rest =>
      match walkStep cur b with
      | none => UnzipResult.ub
      | some nxt =>
          if nxt.isLeaf then
            let s := nxt.symD
            let btd := dec64 bytesToDecode
            if btd = 0 then UnzipResult.ok ext (acc ++ [s])
            else decodeInner t ext t btd (acc ++ [s]) rest
          else decodeInner t ext nxt bytesToDecode acc rest

/-- The outer decoding loop of `unzip` (hzip.cpp lines 416-503), which decodes
the extension.  It only ever reads from the first chunk (`window`): it never
checks `currentByte` against `bytesRead` and never refills, so running past
the chunk reads stale or out-of-bounds memory — undefined behaviour
(`UnzipResult.ub`).  On decoding the separator byte 32 it either succeeds
immediately (all symbols consumed) or hands the remaining bits — the rest of
the window followed by the later chunks (`beyond`) — to the inner loop. -/
def decodeOuter (t : Node) :
    Node → Nat → List Nat → List Bool → List Bool → UnzipResult
  | _, _, _, [], _ => UnzipResult.ub
  | cur, bytesToDecode, ext, b :: rest, beyond =>
      match walkStep cur b with
      | none => UnzipResult.ub
      | some nxt =>
          if nxt.isLeaf then
            let s := nxt.symD
            let btd := dec64 bytesToDecode
            if s = 32 then
              if btd = 0 then UnzipResult.ok ext []
              else decodeInner t ext t btd [] (rest ++ beyond)
            else decodeOuter t t btd (ext ++ [s]) rest beyond
          else decodeOuter t nxt bytesToDecode ext rest beyond

/-- `unzip` (hzip.cpp lines 378-505) on the compressed file's bytes: read the
metadata header, rebuild the leaves and the tree (the `HuffmanTree(leaves)`
constructor also runs `buildEncodingDict`), then decode the body.  An empty
body falls through the outer `while` to the throw at line 504. -/
def unzipModel (file : List Nat) : UnzipResult :=
  match readHuffmanMetadata file with
  | none => UnzipResult.ub
  | some (metadata, body) =>
      match buildLeavesFromMetadata metadata with
      | none => UnzipResult.ub
      | some leaves =>
          match buildMinHeapFromLeaves leaves with
          | none => UnzipResult.ub
          | some root =>
              match buildEncodingDict root with
              | none => UnzipResult.ub
              | some _ =>
                  if body.isEmpty then UnzipResult.err
                  else
                    decodeOuter root root root.getFrequency []
                      (bytesToBits (body.take 1024)) (bytesToBits (body.drop 1024))

/-- The order in which the file constructor's seeding loop leaves the `leaves`
vector: non-increasing frequency, and among equal frequencies strictly
decreasing symbol value (each later-seeded symbol of equal frequency is
inserted in front of the earlier ones). -/
def leafOrder (x y : Node) : Prop :=
  y.getFrequency < x.getFrequency ∨
    (y.getFrequency = x.getFrequency ∧ y.symD < x.symD)

/-- The ordering asserted by the specification for claim C6: non-increasing
frequency with equal-frequency ties in ascending symbol value. -/
def leafOrderClaimed (x y : Node) : Prop :=
  y.getFrequency < x.getFrequency ∨
    (y.getFrequency = x.getFrequency ∧ x.symD < y.symD)

instance (x y : Node) : Decidable (leafOrder x y) := by
  unfold leafOrder; infer_instance

instance (x y : Node) : Decidable (leafOrderClaimed x y) := by
  unfold leafOrderClaimed; infer_instance

/-- The maximum frequency over the 256-symbol alphabet. -/
def maxFreq256 (freqArr : Nat → Nat) : Nat :=
  ((List.range 256).map freqArr).foldr max 0

/-- The (symbol, frequency) payload of a node — all the data a leaf
carries. -/
def pairOf (n : Node) : Nat × Nat := (n.symD, n.getFrequency)

/-- The invariant `setEncodings` maintains on its accumulated `EncodedByte`
and `position` argument: at least one bit, a codeword of exactly
`⌈numberOfBits / 8⌉` bytes, all bits beyond `numberOfBits` clear, and
`position` the MSB-first mask of the next bit to write (0 at a byte
boundary, where the code renormalises it to 0x80). -/
def ebInv (e : EncodedByte) (position : Nat) : Prop :=
  1 ≤ e.numberOfBits ∧
    e.codeword.length = (e.numberOfBits + 7) / 8 ∧
    (∀ i, e.numberOfBits ≤ i → ebBit e i = false) ∧
    position =
      if e.numberOfBits % 8 = 0 then 0 else 2 ^ (7 - e.numberOfBits % 8)

/-- Entries of the codeword dictionary in traversal order: the earlier
entry's bits and the later entry's bits extend a common prefix with a 0 bit
and a 1 bit respectively. -/
def crossRel (a b : Nat × EncodedByte) : Prop :=
  ∃ u s t, ebBits a.2 = u ++ false :: s ∧ ebBits b.2 = u ++ true :: t

theorem length_insertOrderedByFreq (l : List Node) (n : Node) :
    (insertOrderedByFreq l n).length = l.length + 1 := by
  induction l with
  | nil => rfl
  | cons x xs ih =>
      simp only [insertOrderedByFreq]
      split <;> simp [ih]

theorem clog2Go_eq_clog (fuel n : Nat) (h : n ≤ fuel) :
    clog2Go fuel n = Nat.clog 2 n := by
  induction fuel generalizing n with
  | zero =>
      interval_cases n
      simp [clog2Go]
  | succ f ih =>
      by_cases h1 : n ≤ 1
      · have : Nat.clog 2 n = 0 := by
          interval_cases n <;> simp
        simp [clog2Go, h1, this]
      · have h2 : 2 ≤ n := by omega
        have hrec : Nat.clog 2 n = Nat.clog 2 ((n + 2 - 1) / 2) + 1 :=
          Nat.clog_of_two_le (by norm_num) h2
        have hle : (n + 1) / 2 ≤ f := by omega
        simp only [clog2Go, h1, if_false]
        rw [ih _ hle, hrec]
        norm_num

/-- The fuelled definition agrees with `(Nat.clog 2 n + 7) / 8`, the exact
integer form of `ceil(log2(n) / 8)` for `n ≥ 1`. -/
theorem byteSize_eq_clog (n : Nat) : byteSize n = (Nat.clog 2 n + 7) / 8 := by
  unfold byteSize
  rw [clog2Go_eq_clog n n (Nat.le_refl n)]

/-- Claim C3: the claim says the frequency-field byte width computed by
`byteSize` from the maximum leaf frequency is the minimum number of bytes
whose big-endian representation can hold that frequency, and is never zero.
The code evaluates to 0 at maximum frequency 1 (a width-0 field holds
nothing), and to 1 at maximum frequency 256 even though one byte only holds
values up to 255 (`256 ^ byteSize 256 ≤ 256`), so the claim is false of the
code on both counts. -/
theorem c3_byteSize_eval :
    byteSize 1 = 0 ∧ byteSize 256 = 1 ∧ 256 ^ byteSize 256 ≤ 256 := by
  exact ⟨rfl, rfl, by decide⟩

/-- Claim C2: the claim says a single-symbol alphabet yields the fixed 1-bit
codeword `0` for that symbol.  In the code `buildEncodingDict` unconditionally
calls `setEncodings` on `root->getLeftSubtree()`; when the root is itself a
leaf (e.g. the leaf for the separator byte 32 with frequency 1, arising from
an empty extension and empty content) that subtree pointer is null and is
dereferenced, so no codeword is ever assigned — the traversal is undefined
behaviour, modelled by `none`. -/
theorem c2_single_symbol_crash_eval :
    buildEncodingDict (Node.leaf 32 1) = none := rfl

/-- Claim C1: the round trip fails on concrete input extension `"a"`, content
empty.  All three stream symbols occur once, so `byteSize 1 = 0` makes the
header `[2, 0, 97, 32]` carry no frequency bytes at all; `unzip` then reads
the second entry's frequency from one byte past the end of its metadata
allocation (undefined behaviour), instead of reproducing `(content, ext)`. -/
theorem c1_roundtrip_failing_eval :
    zipModel [97] [] = some [2, 0, 97, 32, 128] ∧
      unzipModel [2, 0, 97, 32, 128] = UnzipResult.ub := ⟨rfl, rfl⟩

/-- Claim C4: the claim says the header round trip reconstructs the encoder's
leaf list exactly, including for 256 distinct symbols.  With all 256 byte
values present (frequency 2 each), the writer stores the symbol count
`256 % 256 = 0`, and the reader consequently reconstructs the empty leaf
list instead of the 256 entries. -/
theorem c4_header_256_symbols_eval :
    (do
        let header ← writeHuffmanMetadata (buildLeaves (fun _ => 2))
        let pair ← readHuffmanMetadata header
        buildLeavesFromMetadata pair.1) = some [] ∧
      (buildLeaves (fun _ => 2)).length = 256 := ⟨rfl, rfl⟩

/-- Claim C8: the claim says a compressed body truncated by one byte always
raises the fatal corruption error.  Concrete input: compressing extension
`"aaaaaaaa"` with empty content gives header `[2, 1, 97, 8, 32, 1]` and body
`[0xFF, 0x00]`; removing the last body byte leaves `[.., 0xFF]`.  Decoding
the eight 1-bits yields eight extension bytes without reaching the separator,
and the outer loop of `unzip` — which never compares `currentByte` against
`bytesRead` and never refills its buffer — then reads `srcBuffer[1]` beyond
the single valid byte: stale memory, not the documented error. -/
theorem c8_truncation_eval :
    zipModel [97, 97, 97, 97, 97, 97, 97, 97] [] =
        some [2, 1, 97, 8, 32, 1, 255, 0] ∧
      unzipModel [2, 1, 97, 8, 32, 1, 255] = UnzipResult.ub := ⟨rfl, rfl⟩

theorem mem_insertOrderedByFreq (l : List Node) (n x : Node) :
    x ∈ insertOrderedByFreq l n ↔ x ∈ l ∨ x = n := by
  induction l with
  | nil => simp [insertOrderedByFreq]
  | cons a as ih =>
      simp only [insertOrderedByFreq]
      split
      · simp [ih]; tauto
      · simp; tauto

theorem leafOrder_freq_le {x y : Node} (h : leafOrder x y) :
    y.getFrequency ≤ x.getFrequency := by
  rcases h with h | ⟨h, _⟩ <;> omega

theorem pairwise_insertOrderedByFreq (l : List Node) (n : Node)
    (h1 : List.Pairwise leafOrder l)
    (h2 : ∀ x ∈ l, x.getFrequency = n.getFrequency → x.symD < n.symD) :
    List.Pairwise leafOrder (insertOrderedByFreq l n) := by
  induction l with
  | nil => simp [insertOrderedByFreq]
  | cons a as ih =>
      rcases List.pairwise_cons.mp h1 with ⟨ha, has⟩
      simp only [insertOrderedByFreq]
      split
      · rename_i hlt
        refine List.pairwise_cons.mpr ⟨?_, ?_⟩
        · intro y hy
          rcases (mem_insertOrderedByFreq as n y).mp hy with hy | rfl
          · exact ha y hy
          · exact Or.inl hlt
        · exact ih has (fun x hx => h2 x (List.mem_cons_of_mem a hx))
      · rename_i hnlt
        refine List.pairwise_cons.mpr ⟨?_, h1⟩
        intro y hy
        rcases List.mem_cons.mp hy with rfl | hy
        · rcases Nat.lt_or_ge y.getFrequency n.getFrequency with h | h
          · exact Or.inl h
          · have : y.getFrequency = n.getFrequency := by omega
            exact Or.inr ⟨this, h2 y (List.mem_cons_self y as) this⟩
        · have hya : y.getFrequency ≤ a.getFrequency := leafOrder_freq_le (ha y hy)
          rcases Nat.lt_or_ge y.getFrequency n.getFrequency with h | h
          · exact Or.inl h
          · have : y.getFrequency = n.getFrequency := by omega
            exact Or.inr ⟨this, h2 y (List.mem_cons_of_mem a hy) this⟩

theorem pairwise_seed_foldl (freqArr : Nat → Nat) (is : List Nat)
    (acc : List Node) (his : List.Pairwise (· < ·) is)
    (hacc : List.Pairwise leafOrder acc)
    (hsym : ∀ x ∈ acc, ∀ j ∈ is, x.symD < j) :
    List.Pairwise leafOrder (is.foldl (seedStep freqArr) acc) := by
  induction is generalizing acc with
  | nil => simpa using hacc
  | cons i is' ih =>
      rcases List.pairwise_cons.mp his with ⟨hi, his'⟩
      rw [List.foldl_cons]
      by_cases hz : freqArr i = 0
      · rw [show seedStep freqArr acc i = acc by simp [seedStep, hz]]
        exact ih acc his' hacc
          (fun x hx j hj => hsym x hx j (List.mem_cons_of_mem i hj))
      · rw [show seedStep freqArr acc i =
              insertOrderedByFreq acc (Node.leaf i (freqArr i)) by
            simp [seedStep, hz]]
        refine ih _ his' ?_ ?_
        · refine pairwise_insertOrderedByFreq acc _ hacc ?_
          intro x hx _
          simpa [Node.symD, Node.getOriginalByte] using
            hsym x hx i (List.mem_cons_self i is')
        · intro x hx j hj
          rcases (mem_insertOrderedByFreq acc _ x).mp hx with hx | rfl
          · exact hsym x hx j (List.mem_cons_of_mem i hj)
          · simpa [Node.symD, Node.getOriginalByte] using hi j hj

/-- Claim C6 (amended): the initial leaf list is ordered by non-increasing
frequency, but among leaves of equal frequency the symbols appear in strictly
*descending* symbol value — the seeding loop visits symbols in ascending
order and inserts each new leaf in front of the existing leaves of equal
frequency. -/
theorem c6_leaves_order (freqArr : Nat → Nat) :
    List.Pairwise leafOrder (buildLeaves freqArr) := by
  unfold buildLeaves
  exact pairwise_seed_foldl freqArr (List.range 256) []
    (List.pairwise_lt_range 256) (List.Pairwise.nil) (by simp)

/-- Claim C6, counterexample to the claim as stated: with symbols 0 and 1
both of frequency 1, the seeded list is `[leaf 1, leaf 0]`, so the two
equal-frequency symbols appear in descending order, not the ascending order
the claim asserts. -/
theorem c6_tie_counterexample :
    buildLeaves (fun i => if i < 2 then 1 else 0) =
        [Node.leaf 1 1, Node.leaf 0 1] ∧
      ¬ List.Pairwise leafOrderClaimed
          (buildLeaves (fun i => if i < 2 then 1 else 0)) := by
  constructor
  · rfl
  · intro hpw
    rw [show buildLeaves (fun i => if i < 2 then 1 else 0) =
          [Node.leaf 1 1, Node.leaf 0 1] from rfl] at hpw
    rcases List.pairwise_cons.mp hpw with ⟨hrel, _⟩
    have := hrel (Node.leaf 0 1) (by simp)
    simp [leafOrderClaimed, Node.symD, Node.getOriginalByte,
      Node.getFrequency] at this

/-- Claim C5 (amended): in every merge step the new internal node is
re-inserted before the first element whose frequency is less than *or equal
to* the new node's frequency; in particular, elements of frequency equal to
the new node's end up after it (their relative order preserved), not before
it. -/
theorem c5_insert_characterization (l : List Node) (n : Node) :
    insertOrderedByFreq l n =
      l.takeWhile (fun x => decide (n.getFrequency < x.getFrequency)) ++
        n :: l.dropWhile (fun x => decide (n.getFrequency < x.getFrequency)) := by
  induction l with
  | nil => rfl
  | cons x xs ih =>
      simp only [insertOrderedByFreq, List.takeWhile_cons, List.dropWhile_cons]
      by_cases hx : n.getFrequency < x.getFrequency
      · simp [hx, ih]
      · simp [hx]

/-- Claim C5, counterexample to the claim as stated: re-inserting a freshly
merged node of frequency 2 into a sequence holding one element of frequency 2
places the new node *before* the equal-frequency element (no element has
frequency strictly less than 2, so the claim would put the new node at the
end). -/
theorem c5_tie_counterexample :
    insertOrderedByFreq [Node.leaf 97 2]
        (Node.internal (Node.leaf 98 1) (Node.leaf 99 1)) =
      [Node.internal (Node.leaf 98 1) (Node.leaf 99 1), Node.leaf 97 2] ∧
    insertOrderedByFreq [Node.leaf 97 2]
        (Node.internal (Node.leaf 98 1) (Node.leaf 99 1)) ≠
      [Node.leaf 97 2, Node.internal (Node.leaf 98 1) (Node.leaf 99 1)] := by
  exact ⟨rfl, by decide⟩

theorem leaf_eq_of_pairOf {n m : Node} (hn : n.isLeaf = true)
    (hm : m.isLeaf = true) (hp : pairOf n = pairOf m) : n = m := by
  cases n with
  | leaf s f =>
      cases m with
      | leaf s2 f2 =>
          simp only [pairOf, Node.symD, Node.getOriginalByte, Option.getD_some,
            Node.getFrequency, Prod.mk.injEq] at hp
          simp [hp.1, hp.2]
      | internal _ _ => simp [Node.isLeaf] at hm
  | internal _ _ => simp [Node.isLeaf] at hn

theorem list_eq_of_pairOf : ∀ (L1 L2 : List Node),
    (∀ n ∈ L1, n.isLeaf = true) → (∀ n ∈ L2, n.isLeaf = true) →
    L1.map pairOf = L2.map pairOf → L1 = L2
  | [], [], _, _, _ => rfl
  | [], _ :: _, _, _, hp => by simp at hp
  | _ :: _, [], _, _, hp => by simp at hp
  | a :: as, b :: bs, h1, h2, hp => by
      simp only [List.map_cons, List.cons.injEq] at hp
      have hab : a = b :=
        leaf_eq_of_pairOf (h1 a (List.mem_cons_self a as))
          (h2 b (List.mem_cons_self b bs)) hp.1
      have hrest : as = bs :=
        list_eq_of_pairOf as bs (fun n hn => h1 n (List.mem_cons_of_mem a hn))
          (fun n hn => h2 n (List.mem_cons_of_mem b hn)) hp.2
      rw [hab, hrest]

/-- Claim C9: tree construction is a pure function of the (symbol, frequency)
pairs in their given order.  Two leaf lists that agree on those pairs produce
the same tree and — running `buildEncodingDict` on that tree — bit-for-bit
identical codeword tables: in the embedding a leaf node carries nothing
beyond its pair, so the lists are equal and both constructions coincide. -/
theorem c9_determinism (L1 L2 : List Node)
    (h1 : ∀ n ∈ L1, n.isLeaf = true) (h2 : ∀ n ∈ L2, n.isLeaf = true)
    (hp : L1.map pairOf = L2.map pairOf) :
    buildMinHeapFromLeaves L1 = buildMinHeapFromLeaves L2 ∧
      (buildMinHeapFromLeaves L1).bind buildEncodingDict =
        (buildMinHeapFromLeaves L2).bind buildEncodingDict := by
  have hL : L1 = L2 := list_eq_of_pairOf L1 L2 h1 h2 hp
  rw [hL]
  exact ⟨rfl, rfl⟩

/-- Witness for C9 at a concrete leaf list. -/
theorem c9_determinism_witness :
    buildMinHeapFromLeaves [Node.leaf 97 2, Node.leaf 32 1] =
        buildMinHeapFromLeaves [Node.leaf 97 2, Node.leaf 32 1] ∧
      (buildMinHeapFromLeaves [Node.leaf 97 2, Node.leaf 32 1]).bind
          buildEncodingDict =
        (buildMinHeapFromLeaves [Node.leaf 97 2, Node.leaf 32 1]).bind
          buildEncodingDict :=
  c9_determinism [Node.leaf 97 2, Node.leaf 32 1]
    [Node.leaf 97 2, Node.leaf 32 1] (by decide) (by decide) rfl

theorem mem_seed_foldl (freqArr : Nat → Nat) :
    ∀ (is : List Nat) (acc : List Node) (x : Node),
      x ∈ is.foldl (seedStep freqArr) acc ↔
        x ∈ acc ∨ ∃ j ∈ is, freqArr j ≠ 0 ∧ x = Node.leaf j (freqArr j) := by
  intro is
  induction is with
  | nil => simp
  | cons i is' ih =>
      intro acc x
      rw [List.foldl_cons, ih]
      by_cases hz : freqArr i = 0
      · rw [show seedStep freqArr acc i = acc by simp [seedStep, hz]]
        constructor
        · rintro (hx | ⟨j, hj, hjz, rfl⟩)
          · exact Or.inl hx
          · exact Or.inr ⟨j, List.mem_cons_of_mem i hj, hjz, rfl⟩
        · rintro (hx | ⟨j, hj, hjz, rfl⟩)
          · exact Or.inl hx
          · rcases List.mem_cons.mp hj with rfl | hj
            · exact absurd hz hjz
            · exact Or.inr ⟨j, hj, hjz, rfl⟩
      · rw [show seedStep freqArr acc i =
              insertOrderedByFreq acc (Node.leaf i (freqArr i)) by
            simp [seedStep, hz]]
        rw [mem_insertOrderedByFreq]
        constructor
        · rintro ((hx | rfl) | ⟨j, hj, hjz, rfl⟩)
          · exact Or.inl hx
          · exact Or.inr ⟨i, List.mem_cons_self i is', hz, rfl⟩
          · exact Or.inr ⟨j, List.mem_cons_of_mem i hj, hjz, rfl⟩
        · rintro (hx | ⟨j, hj, hjz, rfl⟩)
          · exact Or.inl (Or.inl hx)
          · rcases List.mem_cons.mp hj with rfl | hj
            · exact Or.inl (Or.inr rfl)
            · exact Or.inr ⟨j, hj, hjz, rfl⟩

theorem mem_buildLeaves (freqArr : Nat → Nat) (x : Node) :
    x ∈ buildLeaves freqArr ↔
      ∃ j ∈ List.range 256, freqArr j ≠ 0 ∧ x = Node.leaf j (freqArr j) := by
  unfold buildLeaves
  rw [mem_seed_foldl]
  simp

theorem head_freq_max (l : List Node) (hpw : List.Pairwise leafOrder l)
    (h0 : Node) (hh : l.head? = some h0) :
    ∀ x ∈ l, x.getFrequency ≤ h0.getFrequency := by
  cases l with
  | nil => simp at hh
  | cons a rest =>
      have ha : h0 = a := by simpa using hh.symm
      subst ha
      intro x hx
      rcases List.mem_cons.mp hx with rfl | hx
      · exact Nat.le_refl _
      · exact leafOrder_freq_le ((List.pairwise_cons.mp hpw).1 x hx)

theorem le_foldr_max (l : List Nat) (a : Nat) (ha : a ∈ l) :
    a ≤ l.foldr max 0 := by
  induction l with
  | nil => simp at ha
  | cons b bs ih =>
      rcases List.mem_cons.mp ha with rfl | ha
      · exact Nat.le_max_left _ _
      · exact Nat.le_trans (ih ha) (Nat.le_max_right _ _)

theorem foldr_max_le (l : List Nat) (c : Nat) (h : ∀ a ∈ l, a ≤ c) :
    l.foldr max 0 ≤ c := by
  induction l with
  | nil => exact Nat.zero_le c
  | cons b bs ih =>
      simp only [List.foldr_cons]
      exact Nat.max_le.mpr ⟨h b (List.mem_cons_self b bs),
        ih (fun a ha => h a (List.mem_cons_of_mem b ha))⟩

/-- Claim C10: the leaves vector seeded by the file constructor is ordered by
non-increasing frequency (and tree construction works on a copy, leaving it
untouched), so `getHigherFrequency` — the frequency of the vector's first
element, the value `writeHuffmanMetadata` feeds to `byteSize` — is the
maximum frequency over all 256 symbols. -/
theorem c10_higher_frequency_max (freqArr : Nat → Nat)
    (h : ∃ i, i < 256 ∧ freqArr i ≠ 0) :
    getHigherFrequency (buildLeaves freqArr) = some (maxFreq256 freqArr) := by
  rcases h with ⟨i, hi, hiz⟩
  have hmem : Node.leaf i (freqArr i) ∈ buildLeaves freqArr :=
    (mem_buildLeaves freqArr _).mpr ⟨i, List.mem_range.mpr hi, hiz, rfl⟩
  rcases hh : (buildLeaves freqArr).head? with _ | h0
  · rw [List.head?_eq_none_iff] at hh
    rw [hh] at hmem
    simp at hmem
  · have hmax := head_freq_max (buildLeaves freqArr) (c6_leaves_order freqArr) h0 hh
    have hh0mem : h0 ∈ buildLeaves freqArr := by
      rcases hl : (buildLeaves freqArr) with _ | ⟨a, rest⟩
      · rw [hl] at hh; simp at hh
      · rw [hl] at hh
        simp only [List.head?_cons, Option.some.injEq] at hh
        rw [← hh]
        exact List.mem_cons_self a rest
    have heq : h0.getFrequency = maxFreq256 freqArr := by
      apply Nat.le_antisymm
      · rcases (mem_buildLeaves freqArr h0).mp hh0mem with ⟨j, hj, hjz, rfl⟩
        exact le_foldr_max _ _
          (List.mem_map.mpr ⟨j, hj, by simp [Node.getFrequency]⟩)
      · apply foldr_max_le
        intro a ha
        rcases List.mem_map.mp ha with ⟨j, hj, rfl⟩
        by_cases hjz : freqArr j = 0
        · simp [hjz]
        · have : Node.leaf j (freqArr j) ∈ buildLeaves freqArr :=
            (mem_buildLeaves freqArr _).mpr ⟨j, hj, hjz, rfl⟩
          simpa [Node.getFrequency] using hmax _ this
    unfold getHigherFrequency
    rw [hh]
    simp [heq]

/-- Witness for C10 at a concrete frequency table. -/
theorem c10_higher_frequency_max_witness :
    getHigherFrequency
        (buildLeaves (fun i => if i = 97 then 5 else if i = 32 then 1 else 0)) =
      some (maxFreq256 (fun i => if i = 97 then 5 else if i = 32 then 1 else 0)) :=
  c10_higher_frequency_max _ ⟨97, by norm_num⟩

theorem getD_set_ne (l : List Nat) {i j : Nat} (v : Nat) (hij : i ≠ j) :
    (l.set i v).getD j 0 = l.getD j 0 := by
  simp [List.getD_eq_getElem?_getD, List.getElem?_set_ne hij]

theorem getD_set_self (l : List Nat) {i : Nat} (v : Nat) (h : i < l.length) :
    (l.set i v).getD i 0 = v := by
  simp [List.getD_eq_getElem?_getD, List.getElem?_set_self',
    List.getElem?_eq_getElem h]

theorem posStep (nb : Nat) :
    2 ^ (7 - nb % 8) / 2 =
      if (nb + 1) % 8 = 0 then 0 else 2 ^ (7 - (nb + 1) % 8) := by
  have h1 : (nb + 1) % 8 = (nb % 8 + 1) % 8 := by omega
  rw [h1]
  obtain ⟨m, hm, hmeq⟩ : ∃ m, m < 8 ∧ nb % 8 = m :=
    ⟨nb % 8, Nat.mod_lt _ (by norm_num), rfl⟩
  rw [hmeq]
  interval_cases m <;> decide

theorem ebBits_snoc (e e' : EncodedByte) (b : Bool)
    (hn : e'.numberOfBits = e.numberOfBits + 1)
    (hsame : ∀ i, i < e.numberOfBits → ebBit e' i = ebBit e i)
    (hlast : ebBit e' e.numberOfBits = b) :
    ebBits e' = ebBits e ++ [b] := by
  unfold ebBits
  rw [hn, List.range_succ, List.map_append]
  congr 1
  · exact List.map_congr_left (fun i hi => hsame i (List.mem_range.mp hi))
  · simp [hlast]

theorem mod_eight_ne_zero (e : EncodedByte) (position : Nat)
    (h : ebInv e position) (hpos : position = 0) :
    e.numberOfBits % 8 = 0 := by
  obtain ⟨_, _, _, h4⟩ := h
  by_contra hm
  rw [if_neg hm, hpos] at h4
  exact (Nat.pow_pos (show 0 < 2 by norm_num)).ne' h4.symm

theorem pos_ne_zero (e : EncodedByte) (position : Nat)
    (h : ebInv e position) (hm : e.numberOfBits % 8 ≠ 0) : position ≠ 0 := by
  obtain ⟨_, _, _, h4⟩ := h
  rw [if_neg hm] at h4
  rw [h4]
  exact (Nat.pow_pos (show 0 < 2 by norm_num)).ne'

theorem norm_length (e : EncodedByte) (position : Nat) (h : ebInv e position) :
    (if position = 0 then e.codeword ++ [0] else e.codeword).length =
      e.numberOfBits / 8 + 1 := by
  have h2 := h.2.1
  by_cases hpos : position = 0
  · have hm := mod_eight_ne_zero e position h hpos
    rw [if_pos hpos, List.length_append, h2]
    have h1 := h.1
    simp
    omega
  · have hm : e.numberOfBits % 8 ≠ 0 := by
      intro hm0
      have h4 := h.2.2.2
      rw [if_pos hm0] at h4
      exact hpos h4
    rw [if_neg hpos, h2]
    omega

theorem norm_bit (e : EncodedByte) (position : Nat) (h : ebInv e position)
    (i : Nat) :
    cwBit (if position = 0 then e.codeword ++ [0] else e.codeword) i =
      ebBit e i := by
  by_cases hpos : position = 0
  · have hm := mod_eight_ne_zero e position h hpos
    obtain ⟨h1, h2, h3, _⟩ := h
    rw [if_pos hpos]
    have hlen : e.codeword.length = e.numberOfBits / 8 := by omega
    rcases Nat.lt_or_ge (i / 8) e.codeword.length with hq | hq
    · unfold ebBit cwBit
      rw [List.getD_append _ _ _ _ hq]
    · -- both sides read a zero byte
      have hright : (e.codeword ++ [0]).getD (i / 8) 0 = 0 := by
        rcases Nat.lt_or_ge (i / 8) (e.codeword ++ [0]).length with hq2 | hq2
        · rw [List.getD_append_right _ _ _ _ hq]
          rcases Nat.eq_or_lt_of_le hq with hq3 | hq3
          · rw [← hq3]
            simp
          · have : 1 ≤ i / 8 - e.codeword.length := by omega
            rw [List.getD_eq_default]
            simpa using this
        · exact List.getD_eq_default _ _ (by omega)
      have hleft : e.codeword.getD (i / 8) 0 = 0 := List.getD_eq_default _ _ hq
      unfold ebBit cwBit
      rw [hright, hleft]
  · rw [if_neg hpos]
    rfl

theorem pN_eq (e : EncodedByte) (position : Nat) (h : ebInv e position) :
    (if position = 0 then 128 else position) =
      2 ^ (7 - e.numberOfBits % 8) := by
  by_cases hpos : position = 0
  · have hm := mod_eight_ne_zero e position h hpos
    rw [if_pos hpos, hm]
    norm_num
  · have hm : e.numberOfBits % 8 ≠ 0 := by
      intro hm0
      have h4 := h.2.2.2
      rw [if_pos hm0] at h4
      exact hpos h4
    have h4 := h.2.2.2
    rw [if_neg hm] at h4
    rw [if_neg hpos, h4]

theorem stepL (e : EncodedByte) (position : Nat) (h : ebInv e position) :
    ebInv ⟨if position = 0 then e.codeword ++ [0] else e.codeword,
        e.numberOfBits + 1⟩ ((if position = 0 then 128 else position) / 2) ∧
      ebBits ⟨if position = 0 then e.codeword ++ [0] else e.codeword,
          e.numberOfBits + 1⟩ =
        ebBits e ++ [false] := by
  have hlen := norm_length e position h
  have hbit := norm_bit e position h
  have h3 := h.2.2.1
  constructor
  · refine ⟨Nat.succ_le_succ (Nat.zero_le _), ?_, ?_, ?_⟩
    · show (if position = 0 then e.codeword ++ [0] else e.codeword).length =
        (e.numberOfBits + 1 + 7) / 8
      rw [hlen]
      omega
    · intro i hi
      have hi' : e.numberOfBits + 1 ≤ i := hi
      show cwBit (if position = 0 then e.codeword ++ [0] else e.codeword) i =
        false
      rw [hbit i]
      exact h3 i (by omega)
    · show (if position = 0 then 128 else position) / 2 =
        if (e.numberOfBits + 1) % 8 = 0 then 0 else 2 ^ (7 - (e.numberOfBits + 1) % 8)
      rw [pN_eq e position h]
      exact posStep e.numberOfBits
  · refine ebBits_snoc e _ false rfl ?_ ?_
    · intro i _
      exact hbit i
    · rw [show ebBit ⟨if position = 0 then e.codeword ++ [0] else e.codeword,
            e.numberOfBits + 1⟩ e.numberOfBits =
          cwBit (if position = 0 then e.codeword ++ [0] else e.codeword)
            e.numberOfBits from rfl, hbit e.numberOfBits]
      exact h3 e.numberOfBits (Nat.le_refl _)

theorem stepR_key (e : EncodedByte) (position : Nat) (h : ebInv e position)
    (i : Nat) :
    cwBit (setLastOr (if position = 0 then e.codeword ++ [0] else e.codeword)
        (if position = 0 then 128 else position)) i =
      if i = e.numberOfBits then true
      else cwBit (if position = 0 then e.codeword ++ [0] else e.codeword) i := by
  have hlen := norm_length e position h
  have hp := pN_eq e position h
  unfold setLastOr
  rw [hlen, Nat.add_sub_cancel]
  by_cases hq : i / 8 = e.numberOfBits / 8
  · unfold cwBit
    rw [hq, getD_set_self _ _ (by rw [hlen]; omega), hp, Nat.testBit_or]
    by_cases hi : i = e.numberOfBits
    · rw [if_pos hi, hi]
      simp [Nat.testBit_two_pow]
    · rw [if_neg hi]
      have hne : ¬ (7 - e.numberOfBits % 8 = 7 - i % 8) := by omega
      rw [Nat.testBit_two_pow]
      simp [hne]
  · unfold cwBit
    rw [getD_set_ne _ _ (fun hEq => hq hEq.symm)]
    have hi : i ≠ e.numberOfBits := fun hEq => hq (by rw [hEq])
    rw [if_neg hi]

theorem stepR (e : EncodedByte) (position : Nat) (h : ebInv e position) :
    ebInv ⟨setLastOr (if position = 0 then e.codeword ++ [0] else e.codeword)
          (if position = 0 then 128 else position), e.numberOfBits + 1⟩
        ((if position = 0 then 128 else position) / 2) ∧
      ebBits ⟨setLastOr (if position = 0 then e.codeword ++ [0] else e.codeword)
            (if position = 0 then 128 else position), e.numberOfBits + 1⟩ =
        ebBits e ++ [true] := by
  have hlen := norm_length e position h
  have hbit := norm_bit e position h
  have hkey := stepR_key e position h
  have h3 := h.2.2.1
  constructor
  · refine ⟨Nat.succ_le_succ (Nat.zero_le _), ?_, ?_, ?_⟩
    · show (setLastOr (if position = 0 then e.codeword ++ [0] else e.codeword)
          (if position = 0 then 128 else position)).length =
        (e.numberOfBits + 1 + 7) / 8
      unfold setLastOr
      rw [List.length_set, hlen]
      omega
    · intro i hi
      have hi' : e.numberOfBits + 1 ≤ i := hi
      show cwBit (setLastOr
          (if position = 0 then e.codeword ++ [0] else e.codeword)
          (if position = 0 then 128 else position)) i = false
      rw [hkey i, if_neg (by omega), hbit i]
      exact h3 i (by omega)
    · show (if position = 0 then 128 else position) / 2 =
        if (e.numberOfBits + 1) % 8 = 0 then 0
        else 2 ^ (7 - (e.numberOfBits + 1) % 8)
      rw [pN_eq e position h]
      exact posStep e.numberOfBits
  · refine ebBits_snoc e _ true rfl ?_ ?_
    · intro i hilt
      show cwBit (setLastOr
          (if position = 0 then e.codeword ++ [0] else e.codeword)
          (if position = 0 then 128 else position)) i = ebBit e i
      rw [hkey i, if_neg (by omega), hbit i]
    · show cwBit (setLastOr
          (if position = 0 then e.codeword ++ [0] else e.codeword)
          (if position = 0 then 128 else position)) e.numberOfBits = true
      rw [hkey _, if_pos rfl]

theorem setEncodingsNode_spec (n : Node) :
    ∀ (e : EncodedByte) (position : Nat), ebInv e position →
      (∀ q ∈ setEncodingsNode e n position, ∃ t, ebBits q.2 = ebBits e ++ t) ∧
        List.Pairwise crossRel (setEncodingsNode e n position) := by
  induction n with
  | leaf s f =>
      intro e position _
      constructor
      · intro q hq
        have hq' : q = (s, e) := by simpa [setEncodingsNode] using hq
        exact ⟨[], by simp [hq']⟩
      · simp [setEncodingsNode]
  | internal l r ihl ihr =>
      intro e position h
      have hunfold : setEncodingsNode e (Node.internal l r) position =
          setEncodingsNode
            ⟨if position = 0 then e.codeword ++ [0] else e.codeword,
              e.numberOfBits + 1⟩ l ((if position = 0 then 128 else position) / 2) ++
          setEncodingsNode
            ⟨setLastOr (if position = 0 then e.codeword ++ [0] else e.codeword)
                (if position = 0 then 128 else position),
              e.numberOfBits + 1⟩ r ((if position = 0 then 128 else position) / 2) :=
        rfl
      rw [hunfold]
      obtain ⟨hInvL, hBitsL⟩ := stepL e position h
      obtain ⟨hInvR, hBitsR⟩ := stepR e position h
      obtain ⟨extL, pwL⟩ := ihl _ _ hInvL
      obtain ⟨extR, pwR⟩ := ihr _ _ hInvR
      constructor
      · intro q hq
        rcases List.mem_append.mp hq with hq | hq
        · obtain ⟨t, ht⟩ := extL q hq
          refine ⟨false :: t, ?_⟩
          rw [ht, hBitsL, List.append_assoc]
          rfl
        · obtain ⟨t, ht⟩ := extR q hq
          refine ⟨true :: t, ?_⟩
          rw [ht, hBitsR, List.append_assoc]
          rfl
      · rw [List.pairwise_append]
        refine ⟨pwL, pwR, ?_⟩
        intro a ha b hb
        obtain ⟨ta, hta⟩ := extL a ha
        obtain ⟨tb, htb⟩ := extR b hb
        refine ⟨ebBits e, ta, tb, ?_, ?_⟩
        · rw [hta, hBitsL, List.append_assoc]
          rfl
        · rw [htb, hBitsR, List.append_assoc]
          rfl

theorem cwBit_zero_byte (i : Nat) : cwBit [0] i = false := by
  unfold cwBit
  have hz : ([0] : List Nat).getD (i / 8) 0 = 0 := by
    rcases hk : i / 8 with _ | k
    · rfl
    · rfl
  rw [hz]
  exact Nat.zero_testBit _

theorem ebInv_left_seed : ebInv ⟨[0], 1⟩ 64 := by
  refine ⟨Nat.le_refl 1, rfl, ?_, by norm_num⟩
  intro i _
  exact cwBit_zero_byte i

theorem ebInv_right_seed : ebInv ⟨[128], 1⟩ 64 := by
  refine ⟨Nat.le_refl 1, rfl, ?_, by norm_num⟩
  intro i hi
  have hi' : 1 ≤ i := hi
  show cwBit [128] i = false
  unfold cwBit
  rcases hk : i / 8 with _ | k
  · have h8 : i < 8 := by omega
    have h7 : i % 8 = i := by omega
    rw [h7, show ([128] : List Nat).getD 0 0 = 128 from rfl,
      show (128 : Nat) = 2 ^ 7 by norm_num, Nat.testBit_two_pow]
    simp
    omega
  · rw [show ([128] : List Nat).getD (k + 1) 0 = 0 from rfl]
    exact Nat.zero_testBit _

theorem ebBits_left_seed : ebBits ⟨[0], 1⟩ = [false] := by decide

theorem ebBits_right_seed : ebBits ⟨[128], 1⟩ = [true] := by decide

theorem not_prefix_split (b c : Bool) (hbc : b ≠ c) (u s t : List Bool) :
    ¬ ((u ++ b :: s) <+: (u ++ c :: t)) := by
  rintro ⟨r, hr⟩
  rw [List.append_assoc] at hr
  have hcons := List.append_cancel_left hr
  simp only [List.cons_append, List.cons.injEq] at hcons
  exact hbc hcons.1

/-- Claim C7: every codeword table produced by `buildEncodingDict` (whenever
it produces one, i.e. the root is internal) assigns every symbol a codeword of
at least one bit, and for any two entries with distinct symbols neither
codeword is a bit-prefix of the other: left-subtree entries extend the 0-bit
seed and right-subtree entries the 1-bit seed, and recursively any two
distinct leaves' bit strings branch at their lowest common ancestor. -/
theorem c7_prefix_free (tr : Node) (d : List (Nat × EncodedByte))
    (hd : buildEncodingDict tr = some d) :
    (∀ p ∈ d, 1 ≤ (ebBits p.2).length) ∧
      ∀ p ∈ d, ∀ q ∈ d, p.1 ≠ q.1 → ¬ (ebBits p.2 <+: ebBits q.2) := by
  cases tr with
  | leaf s f =>
      exfalso
      simp [buildEncodingDict, setEncodings, Node.getLeftSubtree] at hd
  | internal l r =>
      have hd' : d = setEncodingsNode ⟨[0], 1⟩ l 64 ++
          setEncodingsNode ⟨[128], 1⟩ r 64 := by
        have hrfl : buildEncodingDict (Node.internal l r) =
            some (setEncodingsNode ⟨[0], 1⟩ l 64 ++
              setEncodingsNode ⟨[128], 1⟩ r 64) := rfl
        rw [hrfl] at hd
        exact (Option.some.inj hd).symm
      obtain ⟨extL, pwL⟩ := setEncodingsNode_spec l ⟨[0], 1⟩ 64 ebInv_left_seed
      obtain ⟨extR, pwR⟩ := setEncodingsNode_spec r ⟨[128], 1⟩ 64 ebInv_right_seed
      subst hd'
      constructor
      · intro p hp
        rcases List.mem_append.mp hp with hp | hp
        · obtain ⟨t, ht⟩ := extL p hp
          rw [ht, ebBits_left_seed]
          simp
        · obtain ⟨t, ht⟩ := extR p hp
          rw [ht, ebBits_right_seed]
          simp
      · have hcross : ∀ a ∈ setEncodingsNode ⟨[0], 1⟩ l 64,
            ∀ b ∈ setEncodingsNode ⟨[128], 1⟩ r 64, crossRel a b := by
          intro a ha b hb
          obtain ⟨ta, hta⟩ := extL a ha
          obtain ⟨tb, htb⟩ := extR b hb
          refine ⟨[], ta, tb, ?_, ?_⟩
          · rw [hta, ebBits_left_seed]
            rfl
          · rw [htb, ebBits_right_seed]
            rfl
        have hpw : List.Pairwise crossRel
            (setEncodingsNode ⟨[0], 1⟩ l 64 ++ setEncodingsNode ⟨[128], 1⟩ r 64) :=
          List.pairwise_append.mpr ⟨pwL, pwR, hcross⟩
        have hpw' : List.Pairwise (fun a b => crossRel a b ∨ crossRel b a)
            (setEncodingsNode ⟨[0], 1⟩ l 64 ++ setEncodingsNode ⟨[128], 1⟩ r 64) :=
          hpw.imp Or.inl
        have hsymm : Symmetric
            (fun a b : Nat × EncodedByte => crossRel a b ∨ crossRel b a) :=
          fun a b hab => hab.elim Or.inr Or.inl
        intro p hp q hq hne
        have hpq : p ≠ q := fun hEq => hne (by rw [hEq])
        rcases hpw'.forall hsymm hp hq hpq with ⟨u, s, t, h1, h2⟩ | ⟨u, s, t, h1, h2⟩
        · rw [h1, h2]
          exact not_prefix_split false true (by simp) u s t
        · rw [h1, h2]
          exact not_prefix_split true false (by simp) u t s

/-- Witness for C7 on the two-leaf tree `internal (leaf 32 1) (leaf 97 2)`:
its dictionary is `[(32, 0-bit), (97, 1-bit)]` and the theorem instantiates
to concrete non-prefix facts. -/
theorem c7_prefix_free_witness :
    1 ≤ (ebBits ⟨[0], 1⟩).length ∧
      ¬ (ebBits (⟨[0], 1⟩ : EncodedByte) <+: ebBits (⟨[128], 1⟩ : EncodedByte)) :=
  ⟨(c7_prefix_free (Node.internal (Node.leaf 32 1) (Node.leaf 97 2))
        [(32, ⟨[0], 1⟩), (97, ⟨[128], 1⟩)] rfl).1
      (32, ⟨[0], 1⟩) (by decide),
    (c7_prefix_free (Node.internal (Node.leaf 32 1) (Node.leaf 97 2))
        [(32, ⟨[0], 1⟩), (97, ⟨[128], 1⟩)] rfl).2
      (32, ⟨[0], 1⟩) (by decide) (97, ⟨[128], 1⟩) (by decide) (by decide)⟩

/-- Model sanity check, spec section 8 concrete scenario 1: content `"aaab"`
with extension `"txt"` (eight stream symbols, frequencies a:3 t:2 x:1 b:1
space:1) compresses to a 12-byte header plus the packed body `46 7F 40` and
decompresses back byte-exactly — the embedding reproduces the program's
behaviour end to end on inputs that avoid the header bugs. -/
theorem roundtrip_scenario_one :
    zipModel [116, 120, 116] [97, 97, 97, 98] =
        some [5, 1, 97, 3, 116, 2, 120, 1, 98, 1, 32, 1, 70, 127, 64] ∧
      unzipModel [5, 1, 97, 3, 116, 2, 120, 1, 98, 1, 32, 1, 70, 127, 64] =
        UnzipResult.ok [116, 120, 116] [97, 97, 97, 98] := ⟨rfl, rfl⟩

/-- Model sanity check, spec section 8 concrete scenario 2: five bytes of
`'A'` with an empty extension — two symbols (the separator and `'A'`), one
dominating — round-trips byte-exactly. -/
theorem roundtrip_scenario_two :
    zipModel [] [65, 65, 65, 65, 65] = some [2, 1, 65, 5, 32, 1, 124] ∧
      unzipModel [2, 1, 65, 5, 32, 1, 124] =
        UnzipResult.ok [] [65, 65, 65, 65, 65] := ⟨rfl, rfl⟩
